import Mathlib

/-!
Verification of the RUSSH core libraries against their specification.

This file gives a shallow embedding, in Lean 4, of the parts of the
repository that the checked claims are about:

* the sliding-window replay detector and secure-channel decrypt path
  (src/russh-ssh/src/encryption/secure_channel.rs),
* the CRDT sync state: operation application and merge
  (src/russh-ssh/src/vdfs/sync.rs),
* the adaptive streaming buffer (src/russh-ssh/src/streaming/buffer.rs),
* the connection state machine and state manager
  (src/russh-ssh/src/connection/state.rs),
* the reconnection backoff schedule (src/russh-ssh/src/config.rs),
* fixed-size chunking (src/russh-ssh/src/vdfs/chunk.rs),
* password-based key derivation (src/russh-ssh/src/encryption/cipher.rs),
* the virtual filesystem write path (src/russh-ssh/src/vdfs/filesystem.rs)
  together with metadata construction (src/russh-ssh/src/vdfs/metadata.rs).

Modelling conventions: byte strings are `List Nat`; `u64` counters are `Nat`
with an explicit `% 2 ^ 64` wherever the Rust code can wrap (the 64-bit
bitmap shift); Rust `Duration` values are `Nat` nanosecond counts bounded by
`durationMax`; `chrono::DateTime<Utc>` timestamps are `Int`; `PathBuf` is
`String` (paths are compared only for equality); Rust `HashMap`s whose
iteration order is irrelevant to the claims are total functions into
`Option`; the external cryptographic primitives (BLAKE3 `hash_data`,
PBKDF2, the AEAD open/seal) are uninterpreted function parameters, since
their code is not part of this repository.  Panics are modelled as `none`.
-/

/-- Digest type of `hash_data` (BLAKE3, 32 bytes); kept abstract as a byte list. -/
abbrev ContentHash := List Nat

/-! ### Replay window and secure-channel decrypt (secure_channel.rs) -/

/-- Embedding of `ReplayWindow`: `highest_seen` and the 64-bit `bitmap`
(bit `i` records whether counter `highest_seen - i` has been seen). -/
structure ReplayWindow where
  highest_seen : Nat
  bitmap : Nat
deriving DecidableEq

/-- Embedding of `ReplayWindow::new`. -/
def ReplayWindow.new : ReplayWindow := { highest_seen := 0, bitmap := 0 }

/-- Embedding of `ReplayWindow::check_and_mark`.  The Rust shift
`self.bitmap << shift` is on `u64`, hence the `% 2 ^ 64`. -/
def checkAndMark (w : ReplayWindow) (counter : Nat) : ReplayWindow × Bool :=
  if counter > w.highest_seen then
    let shift := counter - w.highest_seen
    let bitmap := if shift ≥ 64 then 1 else ((w.bitmap <<< shift) % 2 ^ 64) ||| 1
    ({ highest_seen := counter, bitmap := bitmap }, true)
  else if w.highest_seen - counter ≥ 64 then
    (w, false)
  else
    let mask := 1 <<< (w.highest_seen - counter)
    if w.bitmap &&& mask ≠ 0 then
      (w, false)
    else
      ({ w with bitmap := w.bitmap ||| mask }, true)

/-- Run `check_and_mark` over a list of counters, accumulating the list of
counters that were accepted (most recent first). -/
def runAcc (w : ReplayWindow) (acc : List Nat) : List Nat → ReplayWindow × List Nat
  | [] => (w, acc)
  | c :: cs =>
    let r := checkAndMark w c
    runAcc r.1 (if r.2 then c :: acc else acc) cs

/-- Embedding of `SecureMessage`, restricted to the fields `SecureChannel::decrypt`
inspects before the AEAD call: the replay counter and the sender identifier. -/
structure SecureMessage where
  counter : Nat
  sender : ContentHash
deriving DecidableEq

/-- Embedding of the control flow of `SecureChannel::decrypt`: reject a wrong
sender, then consult the replay window, then run the AEAD open.  `peer` is the
channel's `peer_identity.identifier` and `aead` the outcome that
`decrypt(&self.decrypt_key, &message.encrypted)` would produce for this
message (the AEAD itself is external library code).  Returns the updated
window and `some plaintext` on success, `none` on any error. -/
def decryptStep (peer : ContentHash) (aead : Option (List Nat))
    (w : ReplayWindow) (msg : SecureMessage) : ReplayWindow × Option (List Nat) :=
  if msg.sender ≠ peer then (w, none)
  else
    let r := checkAndMark w msg.counter
    if r.2 then (r.1, aead) else (r.1, none)

/-! ### Connection state machine (connection/state.rs) -/

/-- Embedding of `ConnectionState`. -/
inductive ConnectionState where
  | disconnected
  | connecting
  | connected
  | reconnecting (attempt : Nat)
  | failed (reason : String)
deriving DecidableEq

/-- Rust `std::mem::discriminant` equality on `ConnectionState`. -/
def sameVariant : ConnectionState → ConnectionState → Bool
  | .disconnected, .disconnected => true
  | .connecting, .connecting => true
  | .connected, .connected => true
  | .reconnecting _, .reconnecting _ => true
  | .failed _, .failed _ => true
  | _, _ => false

/-- Embedding of `ConnectionState::can_transition_to`: the listed match arms,
then the discriminant-equality catch-all, then `false`. -/
def canTransitionTo (s t : ConnectionState) : Bool :=
  match s, t with
  | .disconnected, .connecting => true
  | .disconnected, .failed _ => true
  | .connecting, .connected => true
  | .connecting, .failed _ => true
  | .connecting, .disconnected => true
  | .connected, .disconnected => true
  | .connected, .failed _ => true
  | .connected, .reconnecting _ => true
  | .reconnecting _, .connected => true
  | .reconnecting _, .failed _ => true
  | .reconnecting _, .reconnecting _ => true
  | .reconnecting _, .disconnected => true
  | .failed _, .connecting => true
  | .failed _, .disconnected => true
  | s, t => sameVariant s t

/-- Transition table of spec §4.3, written from the spec's words: rows are
the from-variant, columns the to-variant, with the diagonal ("same-state is
always legal") legal.  Used to compare the code's `can_transition_to`
against the specified table. -/
def specLegal (s t : ConnectionState) : Bool :=
  match s, t with
  | .disconnected, .connecting => true
  | .disconnected, .connected => false
  | .disconnected, .reconnecting _ => false
  | .disconnected, .failed _ => true
  | .connecting, .disconnected => true
  | .connecting, .connected => true
  | .connecting, .reconnecting _ => false
  | .connecting, .failed _ => true
  | .connected, .disconnected => true
  | .connected, .connecting => false
  | .connected, .reconnecting _ => true
  | .connected, .failed _ => true
  | .reconnecting _, .disconnected => true
  | .reconnecting _, .connecting => false
  | .reconnecting _, .connected => true
  | .reconnecting _, .reconnecting _ => true
  | .reconnecting _, .failed _ => true
  | .failed _, .disconnected => true
  | .failed _, .connecting => true
  | .failed _, .connected => false
  | .failed _, .reconnecting _ => false
  | .disconnected, .disconnected => true
  | .connecting, .connecting => true
  | .connected, .connected => true
  | .failed _, .failed _ => true

/-- Embedding of `StateChangeEvent`. -/
structure StateChangeEvent where
  old_state : ConnectionState
  new_state : ConnectionState
deriving DecidableEq

/-- Embedding of the `InvalidTransition` error, with the Rust fields
`from` and `to` (renamed, `from` being a Lean keyword). -/
structure InvalidTransition where
  fromState : ConnectionState
  toState : ConnectionState
deriving DecidableEq

instance : DecidableEq (Except InvalidTransition Bool) := fun a b =>
  match a, b with
  | .ok x, .ok y =>
    if h : x = y then isTrue (by rw [h]) else isFalse (by intro hc; cases hc; exact h rfl)
  | .error x, .error y =>
    if h : x = y then isTrue (by rw [h]) else isFalse (by intro hc; cases hc; exact h rfl)
  | .ok _, .error _ => isFalse (by intro hc; cases hc)
  | .error _, .ok _ => isFalse (by intro hc; cases hc)

/-- Outcome of a `StateManager` call: the state stored afterwards, the value
returned, and the event broadcast (if any). -/
structure TransitionOutcome where
  stored : ConnectionState
  result : Except InvalidTransition Bool
  event : Option StateChangeEvent
deriving DecidableEq

/-- Embedding of `StateManager::try_transition`, as a function of the state
held in the manager's lock. -/
def tryTransition (cur new : ConnectionState) : TransitionOutcome :=
  if cur = new then
    { stored := cur, result := .ok false, event := none }
  else if ¬ canTransitionTo cur new then
    { stored := cur, result := .error { fromState := cur, toState := new }, event := none }
  else
    { stored := new, result := .ok true,
      event := some { old_state := cur, new_state := new } }

/-- Embedding of `StateManager::set_state`: new stored state, the returned
Bool, and the event broadcast (if any). -/
def setState (cur new : ConnectionState) : ConnectionState × Bool × Option StateChangeEvent :=
  if cur = new then (cur, false, none)
  else (new, true, some { old_state := cur, new_state := new })

/-! ### Reconnection backoff (config.rs) -/

/-- Largest value of Rust `std::time::Duration`, in nanoseconds:
`u64::MAX` seconds plus `999_999_999` nanoseconds.  `saturating_mul`
saturates here. -/
def durationMax : Nat := (2 ^ 64 - 1) * 1000000000 + 999999999

/-- Embedding of `ReconnectionStrategy`; delays are in nanoseconds. -/
structure ReconnectionStrategy where
  max_attempts : Nat
  base_delay : Nat
  max_delay : Nat
  jitter : Bool
deriving DecidableEq

/-- Embedding of `ReconnectionStrategy::delay_for_attempt`.  `rnd` stands for
the value drawn from `rand::random::<u64>()` when jitter is enabled (the
jitter amount is `rnd % jitter_max` milliseconds); `as_millis() as u64`
truncates to milliseconds and wraps at `2 ^ 64`. -/
def delayForAttempt (s : ReconnectionStrategy) (attempt : Nat) (rnd : Nat) : Nat :=
  let cappedAttempt := min attempt 10
  let multiplier := 2 ^ cappedAttempt
  let exponential := min (s.base_delay * multiplier) durationMax
  let capped := if exponential > s.max_delay then s.max_delay else exponential
  if s.jitter then
    let jitterMax := (capped / 1000000) % 2 ^ 64 / 4
    if jitterMax > 0 then capped + (rnd % jitterMax) * 1000000 else capped
  else
    capped

/-! ### Fixed-size chunking (vdfs/chunk.rs) -/

/-- Embedding of `Chunk`: content hash id plus raw data. -/
structure Chunk where
  id : ContentHash
  data : List Nat
deriving DecidableEq

/-- Successive slices of size `s` produced by Rust `slice::chunks(s)`
(`s = 0` panics in Rust and yields `[]` here; every claim assumes `s > 0`). -/
def chunksOf (s : Nat) (data : List Nat) : List (List Nat) :=
  if h : s = 0 ∨ data = [] then []
  else data.take s :: chunksOf s (data.drop s)
termination_by data.length
decreasing_by
  push_neg at h
  simp only [List.length_drop]
  have hd : 0 < data.length := List.length_pos.mpr h.2
  omega

/-- Embedding of `chunk_data`: split into fixed-size slices and build a
`Chunk` from each (so each id is `hash` of the slice).  `hash` stands for
the external BLAKE3 `hash_data`. -/
def chunkData (hash : List Nat → ContentHash) (data : List Nat) (chunkSize : Nat) : List Chunk :=
  (chunksOf chunkSize data).map fun slice => { id := hash slice, data := slice }

/-- Embedding of `reassemble_chunks`: concatenate the chunk data in order. -/
def reassembleChunks (chunks : List Chunk) : List Nat :=
  (chunks.map Chunk.data).flatten

/-! ### Password-based key derivation (encryption/cipher.rs) -/

/-- Embedding of `EncryptionKey::from_password`.  `kdf password salt` stands
for the 32-byte output of the external `pbkdf2::derive` with
PBKDF2-HMAC-SHA256 at 600000 iterations; the Rust `assert!` on the salt
length (a panic) is modelled as `none`. -/
def fromPassword (kdf : List Nat → List Nat → List Nat)
    (password salt : List Nat) : Option (List Nat) :=
  if salt.length ≥ 16 then some (kdf password salt) else none

/-! ### File metadata (vdfs/metadata.rs) -/

/-- Embedding of `FileType`. -/
inductive FileType where
  | file
  | directory
  | symlink
deriving DecidableEq

/-- Embedding of `Permissions` (nine independent bits). -/
structure Permissions where
  owner_read : Bool
  owner_write : Bool
  owner_execute : Bool
  group_read : Bool
  group_write : Bool
  group_execute : Bool
  other_read : Bool
  other_write : Bool
  other_execute : Bool
deriving DecidableEq

/-- Embedding of `Permissions::default` (mode 644). -/
def Permissions.default644 : Permissions :=
  { owner_read := true, owner_write := true, owner_execute := false
    group_read := true, group_write := false, group_execute := false
    other_read := true, other_write := false, other_execute := false }

/-- Embedding of `FileMetadata`; timestamps are `Int` instants. -/
structure FileMetadata where
  path : String
  file_type : FileType
  size : Nat
  content_hash : Option ContentHash
  chunks : List ContentHash
  permissions : Permissions
  created : Int
  modified : Int
  accessed : Int
  symlink_target : Option String
  version : Nat
  modified_by : Option String
deriving DecidableEq

/-- Embedding of `FileMetadata::new_file`; `now` is the `Utc::now()` instant. -/
def FileMetadata.new_file (path : String) (size : Nat) (content_hash : ContentHash)
    (chunks : List ContentHash) (now : Int) : FileMetadata :=
  { path := path, file_type := .file, size := size
    content_hash := some content_hash, chunks := chunks
    permissions := Permissions.default644
    created := now, modified := now, accessed := now
    symlink_target := none, version := 1, modified_by := none }

/-! ### CRDT sync state (vdfs/sync.rs) -/

/-- Embedding of `SyncStatus`. -/
inductive SyncStatus where
  | synced
  | localModified
  | remoteModified
  | conflict
  | syncing
deriving DecidableEq

/-- Embedding of `FileOperation` (the Rust `Move` fields `from`/`to` are
renamed, `from` being a Lean keyword). -/
inductive FileOperation where
  | create (path : String) (metadata : FileMetadata)
  | update (path : String) (metadata : FileMetadata)
  | delete (path : String)
  | move (fromPath : String) (toPath : String)
deriving DecidableEq

/-- Embedding of `TimestampedOp`. -/
structure TimestampedOp where
  op : FileOperation
  timestamp : Int
  node_id : String
  clock : Nat
deriving DecidableEq

/-- Embedding of `SyncState`.  The two `HashMap`s are modelled as total
functions into `Option`; only their pointwise content matters to the
claims. -/
structure SyncState where
  files : String → Option FileMetadata
  operations : List TimestampedOp
  clock : Nat
  node_id : String
  status : String → Option SyncStatus

/-- Point update of a map modelled as a function (`HashMap::insert` for
`some`, `HashMap::remove` for `none`). -/
def updFn {α : Type} (f : String → Option α) (k : String) (v : Option α) :
    String → Option α :=
  fun q => if q = k then v else f q

/-- Embedding of `SyncState::apply_operation`.  Note the `Update` guard
compares the operation's `timestamp` with the existing entry's `modified`
field, exactly as the Rust code does. -/
def SyncState.applyOperation (st : SyncState) (top : TimestampedOp) : SyncState :=
  match top.op with
  | .create p m =>
    { st with files := updFn st.files p (some m), status := updFn st.status p (some .synced) }
  | .update p m =>
    match st.files p with
    | some existing =>
      let files :=
        if m.version > existing.version ∨
            (m.version = existing.version ∧ top.timestamp > existing.modified) then
          updFn st.files p (some m)
        else st.files
      { st with files := files, status := updFn st.status p (some .synced) }
    | none =>
      { st with files := updFn st.files p (some m), status := updFn st.status p (some .synced) }
  | .delete p =>
    { st with files := updFn st.files p none, status := updFn st.status p none }
  | .move a b =>
    match st.files a with
    | some md =>
      { st with
        files := updFn (updFn st.files a none) b (some { md with path := b })
        status := updFn (updFn st.status a none) b (some .synced) }
    | none => st

/-- Embedding of `SyncState::apply_local`; `now` is the `Utc::now()` instant
used to timestamp the operation. -/
def SyncState.applyLocal (st : SyncState) (op : FileOperation) (now : Int) : SyncState :=
  let clock := st.clock + 1
  let top : TimestampedOp := { op := op, timestamp := now, node_id := st.node_id, clock := clock }
  let st' := SyncState.applyOperation { st with clock := clock } top
  { st' with operations := st'.operations ++ [top] }

/-- LWW replacement predicate used by `SyncState::merge`: the incoming
metadata wins iff it has a strictly higher version, or the same version and a
strictly later `modified` timestamp. -/
def lwwReplaces (incoming existing : FileMetadata) : Prop :=
  incoming.version > existing.version ∨
    (incoming.version = existing.version ∧ incoming.modified > existing.modified)

instance (i e : FileMetadata) : Decidable (lwwReplaces i e) := by
  unfold lwwReplaces; exact inferInstance

/-- Comparison used by the final `sort_by` in `SyncState::merge`:
by `clock`, ties broken by `timestamp`. -/
def opLe (a b : TimestampedOp) : Bool :=
  a.clock < b.clock || (a.clock == b.clock && a.timestamp ≤ b.timestamp)

/-- Embedding of `SyncState::merge`: bump the clock, LWW-merge the files map
entry by entry, append the other log's operations not already present
(deduplicated by `(timestamp, node_id)`), and re-sort the log. -/
def SyncState.merge (self other : SyncState) : SyncState :=
  { clock := max self.clock other.clock + 1
    node_id := self.node_id
    status := self.status
    files := fun p =>
      match other.files p with
      | none => self.files p
      | some om =>
        match self.files p with
        | none => some om
        | some sm => if lwwReplaces om sm then some om else some sm
    operations :=
      (self.operations ++ other.operations.filter fun op =>
        ! self.operations.any fun o => o.timestamp == op.timestamp && o.node_id == op.node_id
      ).mergeSort opLe }

/-! ### Virtual filesystem write path (vdfs/filesystem.rs) -/

/-- Embedding of `VirtualFs::write` at the sync-state level: chunk the data,
compute the content hash, build fresh metadata via `FileMetadata::new_file`,
and apply a local `Create` operation.  `path` is the already-normalized
path, `chunkSize` the store's chunk size, `hash` the external BLAKE3
`hash_data`, and `now` the `Utc::now()` instant.  Returns the new sync
state and the metadata that `write` returns. -/
def vfsWrite (hash : List Nat → ContentHash) (st : SyncState) (path : String)
    (data : List Nat) (chunkSize : Nat) (now : Int) : SyncState × FileMetadata :=
  let chunks := chunkData hash data chunkSize
  let chunkIds := chunks.map Chunk.id
  let md := FileMetadata.new_file path data.length (hash data) chunkIds now
  (SyncState.applyLocal st (.create path md) now, md)

/-! ### Adaptive streaming buffer (streaming/buffer.rs) -/

/-- Embedding of `BufferConfig` (the advisory `target_duration` is omitted:
no claim and no buffer operation reads it). -/
structure BufferConfig where
  min_buffer_size : Nat
  max_buffer_size : Nat
  low_watermark : Nat
  high_watermark : Nat
deriving DecidableEq

/-- Embedding of `AdaptiveBuffer`.  The `BTreeMap<u64, BufferedRange>` is an
association list sorted by ascending start position, each entry holding the
range's data; a `BufferedRange`'s `start` equals its key. -/
structure AdaptiveBuffer where
  config : BufferConfig
  ranges : List (Nat × List Nat)
  total_buffered : Nat
  stream_size : Option Nat
  read_position : Nat
  bytes_consumed : Nat
  adaptive_target : Nat
deriving DecidableEq

/-- Embedding of `AdaptiveBuffer::new`. -/
def AdaptiveBuffer.new (config : BufferConfig) : AdaptiveBuffer :=
  { config := config, ranges := [], total_buffered := 0, stream_size := none
    read_position := 0, bytes_consumed := 0, adaptive_target := config.min_buffer_size }

/-- `BTreeMap::insert`: place the entry at its sorted position, replacing any
entry already stored under the same key. -/
def btInsert (ranges : List (Nat × List Nat)) (key : Nat) (data : List Nat) :
    List (Nat × List Nat) :=
  match ranges with
  | [] => [(key, data)]
  | (k, d) :: rest =>
    if key < k then (key, data) :: (k, d) :: rest
    else if key = k then (key, data) :: rest
    else (k, d) :: btInsert rest key data

/-- `BTreeMap::remove` on the sorted association list. -/
def btRemove (ranges : List (Nat × List Nat)) (key : Nat) : List (Nat × List Nat) :=
  match ranges with
  | [] => []
  | (k, d) :: rest => if k = key then rest else (k, d) :: btRemove rest key

/-- One pass of the `while` loop of `AdaptiveBuffer::evict_to_make_room`,
with explicit fuel.  Each iteration removes the first range (in ascending
key order) that ends at or before the read position, else the very first
range, and stops when the total is at or below the target or no range is
left.  The loop removes one range per iteration, so fuel
`ranges.length + 1` makes the fuel never the reason to stop. -/
def evictLoop (fuel : Nat) (b : AdaptiveBuffer) (target : Nat) : AdaptiveBuffer :=
  match fuel with
  | 0 => b
  | fuel + 1 =>
    if b.total_buffered ≤ target then b
    else
      match b.ranges.find? (fun r => r.1 + r.2.length ≤ b.read_position) with
      | some (k, d) =>
        evictLoop fuel
          { b with ranges := btRemove b.ranges k, total_buffered := b.total_buffered - d.length }
          target
      | none =>
        match b.ranges with
        | (k, d) :: _ =>
          evictLoop fuel
            { b with ranges := btRemove b.ranges k, total_buffered := b.total_buffered - d.length }
            target
        | [] => b

/-- Embedding of `AdaptiveBuffer::evict_to_make_room` (the target is the
`saturating_sub`, hence plain `Nat` subtraction). -/
def evictToMakeRoom (b : AdaptiveBuffer) (neededSpace : Nat) : AdaptiveBuffer :=
  evictLoop (b.ranges.length + 1) b (b.config.max_buffer_size - neededSpace)

/-- Embedding of `AdaptiveBuffer::add_data`: empty data is a no-op; evict
first when the new total would top the maximum; truncate oversized data to
the maximum; insert the range and add its actual length to the total. -/
def addData (b : AdaptiveBuffer) (position : Nat) (data : List Nat) : AdaptiveBuffer :=
  if data = [] then b
  else
    let dataLen := data.length
    let b :=
      if b.total_buffered + dataLen > b.config.max_buffer_size then
        evictToMakeRoom b dataLen
      else b
    let data := if dataLen > b.config.max_buffer_size then data.take b.config.max_buffer_size else data
    let actualLen := data.length
    { b with ranges := btInsert b.ranges position data
             total_buffered := b.total_buffered + actualLen }

/-- Embedding of `AdaptiveBuffer::adapt_buffer_size`. -/
def adaptBufferSize (b : AdaptiveBuffer) : AdaptiveBuffer :=
  let threshold := b.config.high_watermark / 8
  if b.bytes_consumed ≥ threshold then
    { b with adaptive_target := min (b.adaptive_target * 3 / 2) b.config.max_buffer_size
             bytes_consumed := 0 }
  else b

/-- Embedding of `AdaptiveBuffer::read`: find the range containing the read
position, copy up to `len` bytes from it, advance the position, and adapt. -/
def readBuffer (b : AdaptiveBuffer) (len : Nat) : AdaptiveBuffer × Option (List Nat) :=
  let pos := b.read_position
  match b.ranges.find? (fun r => r.1 ≤ pos ∧ pos < r.1 + r.2.length) with
  | none => (b, none)
  | some (start, rdata) =>
    let offset := pos - start
    let available := rdata.length - offset
    let toRead := min len available
    let out := (rdata.drop offset).take toRead
    let b := { b with read_position := pos + toRead, bytes_consumed := b.bytes_consumed + toRead }
    (adaptBufferSize b, some out)

/-- Embedding of `AdaptiveBuffer::seek`. -/
def seekBuffer (b : AdaptiveBuffer) (position : Nat) : AdaptiveBuffer × Bool :=
  match b.stream_size with
  | some size =>
    if position > size then (b, false)
    else
      ({ b with read_position := position },
        b.ranges.any fun r => r.1 ≤ position ∧ position < r.1 + r.2.length)
  | none =>
    ({ b with read_position := position },
      b.ranges.any fun r => r.1 ≤ position ∧ position < r.1 + r.2.length)

/-- Embedding of `AdaptiveBuffer::clear`. -/
def clearBuffer (b : AdaptiveBuffer) : AdaptiveBuffer :=
  { b with ranges := [], total_buffered := 0, read_position := 0 }

/-- One observable buffer operation, for stating properties of call
sequences. -/
inductive BufOp where
  | add (position : Nat) (data : List Nat)
  | read (len : Nat)
  | seek (position : Nat)
  | clear
deriving DecidableEq

/-- Apply one buffer operation (dropping the values `read`/`seek` return). -/
def applyBufOp (b : AdaptiveBuffer) : BufOp → AdaptiveBuffer
  | .add position data => addData b position data
  | .read len => (readBuffer b len).1
  | .seek position => (seekBuffer b position).1
  | .clear => clearBuffer b

/-- Apply a sequence of buffer operations in order. -/
def applyBufOps (b : AdaptiveBuffer) (ops : List BufOp) : AdaptiveBuffer :=
  ops.foldl applyBufOp b

/-! ### Auxiliary predicates and concrete sample data used by the theorems -/

/-- Abstraction invariant tying a `ReplayWindow` to the list `S` of counters
accepted so far: the bitmap fits in 64 bits, every accepted counter is at
most `highest_seen`, and bit `i` of the bitmap is set exactly when counter
`highest_seen - i` has been accepted. -/
def WindowInv (w : ReplayWindow) (S : List Nat) : Prop :=
  w.bitmap < 2 ^ 64 ∧
  (∀ c ∈ S, c ≤ w.highest_seen) ∧
  (∀ i, i < 64 → (w.bitmap.testBit i = true ↔ i ≤ w.highest_seen ∧ (w.highest_seen - i) ∈ S))

/-- Sample metadata: a file at `/c.txt` with version 1, modified instant 10,
and the given size (the size distinguishes two metadata values that tie on
the LWW key). -/
def mdTie (size : Nat) : FileMetadata :=
  { path := "/c.txt", file_type := .file, size := size, content_hash := none
    chunks := [], permissions := Permissions.default644
    created := 0, modified := 10, accessed := 0
    symlink_target := none, version := 1, modified_by := none }

/-- Sample sync state of node `n1` holding `mdTie 10` at `/c.txt`. -/
def stA : SyncState :=
  { files := fun p => if p = "/c.txt" then some (mdTie 10) else none
    operations := [], clock := 0, node_id := "n1", status := fun _ => none }

/-- Sample sync state of node `n2` holding `mdTie 20` at `/c.txt`: same
version and modified timestamp as `stA`'s entry but different content. -/
def stB : SyncState :=
  { files := fun p => if p = "/c.txt" then some (mdTie 20) else none
    operations := [], clock := 0, node_id := "n2", status := fun _ => none }

/-- Sample empty sync state. -/
def stEmpty : SyncState :=
  { files := fun _ => none, operations := [], clock := 0, node_id := "n0"
    status := fun _ => none }

/-- Incoming metadata for the `Update` counterexample: same version as
`mdTie 10`, strictly later `modified` (20 > 10). -/
def mdInc : FileMetadata :=
  { path := "/c.txt", file_type := .file, size := 99, content_hash := none
    chunks := [], permissions := Permissions.default644
    created := 0, modified := 20, accessed := 0
    symlink_target := none, version := 1, modified_by := none }

/-- Update operation carrying `mdInc` whose own timestamp (5) is earlier
than the existing entry's `modified` field (10). -/
def opC3 : TimestampedOp :=
  { op := .update "/c.txt" mdInc, timestamp := 5, node_id := "n2", clock := 7 }

/-- Buffer configuration with a 100-byte maximum. -/
def bufCfg : BufferConfig :=
  { min_buffer_size := 0, max_buffer_size := 100, low_watermark := 0, high_watermark := 100 }

/-- Call sequence overflowing the buffer accounting: three adds at the same
position (each replacement leaks 30 bytes of accounting) and a final large
add that exhausts the ranges during eviction. -/
def bufOpsC4 : List BufOp :=
  [ .add 0 (List.replicate 30 1), .add 0 (List.replicate 30 1)
  , .add 0 (List.replicate 30 1), .add 0 (List.replicate 80 2) ]

/-! ### Theorems -/

/-- The code's transition check agrees with the spec §4.3 table everywhere. -/
theorem canTransitionTo_eq_specLegal (s t : ConnectionState) :
    canTransitionTo s t = specLegal s t := by
  cases s <;> cases t <;> rfl

/-- Same-state transitions are always allowed by the code's check. -/
theorem canTransitionTo_refl (s : ConnectionState) : canTransitionTo s s = true := by
  cases s <;> rfl

/-- C5: `try_transition` accepts exactly the transitions the §4.3 table marks
legal: the check equals the table; an equal-state request is a no-op
returning `Ok(false)` with no broadcast; an illegal request returns
`InvalidTransition{from, to}`, leaves the stored state unchanged and
broadcasts nothing; a legal unequal request stores the new state, returns
`Ok(true)` and broadcasts the change. -/
theorem tryTransition_matches_spec_table (s t : ConnectionState) :
    canTransitionTo s t = specLegal s t ∧
    (s = t → tryTransition s t =
      { stored := s, result := .ok false, event := none }) ∧
    (specLegal s t = false → tryTransition s t =
      { stored := s, result := .error { fromState := s, toState := t }, event := none }) ∧
    (s ≠ t → specLegal s t = true → tryTransition s t =
      { stored := t, result := .ok true
        event := some { old_state := s, new_state := t } }) := by
  refine ⟨canTransitionTo_eq_specLegal s t, ?_, ?_, ?_⟩
  · intro h
    subst h
    simp [tryTransition]
  · intro h
    have hne : s ≠ t := by
      intro he
      subst he
      rw [← canTransitionTo_eq_specLegal, canTransitionTo_refl] at h
      cases h
    have hc : canTransitionTo s t = false := by
      rw [canTransitionTo_eq_specLegal, h]
    simp [tryTransition, hne, hc]
  · intro hne h
    have hc : canTransitionTo s t = true := by
      rw [canTransitionTo_eq_specLegal, h]
    simp [tryTransition, hne, hc]

/-- Witness for `tryTransition_matches_spec_table` at the concrete illegal
transition Disconnected → Connected. -/
theorem tryTransition_matches_spec_table_witness :
    tryTransition .disconnected .connected =
      { stored := .disconnected
        result := .error { fromState := .disconnected, toState := .connected }
        event := none } :=
  (tryTransition_matches_spec_table .disconnected .connected).2.2.1 rfl

/-- C9: every event delivered to subscribers has distinct old and new
states: `set_state` and `try_transition` broadcast nothing on an
equal-state request, and any broadcast event pairs the previous state with
a different new state. -/
theorem stateChangeEvent_never_noop (cur new : ConnectionState) (ev : StateChangeEvent) :
    ((setState cur new).2.2 = some ev → ev.old_state ≠ ev.new_state) ∧
    ((tryTransition cur new).event = some ev → ev.old_state ≠ ev.new_state) ∧
    (cur = new → (setState cur new).2.2 = none ∧ (tryTransition cur new).event = none) := by
  by_cases h : cur = new
  · subst h
    simp [setState, tryTransition]
  · refine ⟨?_, ?_, fun he => absurd he h⟩
    · intro hev
      simp [setState, h] at hev
      rw [← hev]
      simpa using h
    · intro hev
      by_cases hc : canTransitionTo cur new = true
      · simp [tryTransition, h, hc] at hev
        rw [← hev]
        simpa using h
      · simp [tryTransition, h, hc] at hev

/-- Witness for `stateChangeEvent_never_noop`: the event broadcast for the
concrete transition Disconnected → Connecting has distinct states. -/
theorem stateChangeEvent_never_noop_witness :
    ({ old_state := .disconnected, new_state := .connecting } : StateChangeEvent).old_state ≠
      ({ old_state := .disconnected, new_state := .connecting } : StateChangeEvent).new_state :=
  (stateChangeEvent_never_noop .disconnected .connecting
    { old_state := .disconnected, new_state := .connecting }).2.1 (by decide)

/-- C6: with jitter disabled, `delay_for_attempt(n)` equals
`min(base_delay * 2 ^ min(n, 10), max_delay)`; consequently attempt 0 gets
`min(base_delay, max_delay)`, the schedule is non-decreasing, and every
delay is at most `max_delay`.  The hypothesis `max_delay ≤ durationMax`
holds of every Rust `Duration`. -/
theorem delayForAttempt_spec (s : ReconnectionStrategy) (n rnd : Nat)
    (hj : s.jitter = false) (hmax : s.max_delay ≤ durationMax) :
    delayForAttempt s n rnd = min (s.base_delay * 2 ^ min n 10) s.max_delay ∧
    delayForAttempt s n rnd ≤ delayForAttempt s (n + 1) rnd ∧
    delayForAttempt s 0 rnd = min s.base_delay s.max_delay ∧
    delayForAttempt s n rnd ≤ s.max_delay := by
  have key : ∀ m, delayForAttempt s m rnd = min (s.base_delay * 2 ^ min m 10) s.max_delay := by
    intro m
    unfold delayForAttempt
    rw [hj]
    simp only [Bool.false_eq_true, if_false]
    rcases le_total (s.base_delay * 2 ^ min m 10) s.max_delay with h | h
    · rw [min_eq_left (le_trans h hmax), if_neg (by omega), min_eq_left h]
    · by_cases hgt : min (s.base_delay * 2 ^ min m 10) durationMax > s.max_delay
      · rw [if_pos hgt, min_eq_right h]
      · push_neg at hgt
        rw [if_neg (by omega),
          le_antisymm hgt (le_min h hmax), min_eq_right h]
  refine ⟨key n, ?_, ?_, ?_⟩
  · rw [key n, key (n + 1)]
    exact min_le_min_right _ (Nat.mul_le_mul_left _ (Nat.pow_le_pow_right (by norm_num) (by omega)))
  · rw [key 0]
    norm_num
  · rw [key n]
    exact min_le_right _ _

/-- Witness for `delayForAttempt_spec` at a concrete strategy (base 1000 ns,
cap 60000 ns, no jitter) and attempt 3. -/
theorem delayForAttempt_spec_witness :
    delayForAttempt { max_attempts := 5, base_delay := 1000, max_delay := 60000, jitter := false } 3 0 =
      min (1000 * 2 ^ min 3 10) 60000 :=
  (delayForAttempt_spec { max_attempts := 5, base_delay := 1000, max_delay := 60000, jitter := false }
    3 0 rfl (by norm_num [durationMax])).1

/-- C8: `from_password` treats a salt shorter than 16 bytes as a fatal
precondition violation (the Rust assert panics, modelled as `none`), and
with a salt of at least 16 bytes it always succeeds with the PBKDF2 output,
a function of `(password, salt)` alone — hence deterministic. -/
theorem fromPassword_spec (kdf : List Nat → List Nat → List Nat) (password salt : List Nat) :
    (salt.length < 16 → fromPassword kdf password salt = none) ∧
    (16 ≤ salt.length → fromPassword kdf password salt = some (kdf password salt)) := by
  constructor
  · intro h
    unfold fromPassword
    rw [if_neg (by omega)]
  · intro h
    unfold fromPassword
    rw [if_pos h]

/-- Witness for `fromPassword_spec`: a 16-byte salt succeeds, a 1-byte salt
is rejected. -/
theorem fromPassword_spec_witness :
    fromPassword (fun p s => p ++ s) [1] (List.replicate 16 0) =
      some ((fun (p s : List Nat) => p ++ s) [1] (List.replicate 16 0)) ∧
    fromPassword (fun p s => p ++ s) [1] [0] = none :=
  ⟨(fromPassword_spec (fun p s => p ++ s) [1] (List.replicate 16 0)).2 (by simp),
    (fromPassword_spec (fun p s => p ++ s) [1] [0]).1 (by simp)⟩

/-- C4 fails on the code: after the four `add_data` calls of `bufOpsC4`
(three 30-byte adds at position 0 — each replacement under the same key
adds its length to `total_buffered` without subtracting the replaced
range's — then an 80-byte add that exhausts the ranges during eviction),
the observable `buffered_bytes()` is 140 although `max_buffer_size` is
100. -/
theorem addData_exceeds_max :
    (applyBufOps (AdaptiveBuffer.new bufCfg) bufOpsC4).total_buffered = 140 ∧
    (applyBufOps (AdaptiveBuffer.new bufCfg) bufOpsC4).config.max_buffer_size = 100 ∧
    100 < 140 := by
  constructor
  · rfl
  · exact ⟨rfl, by norm_num⟩

/-- C10: `VirtualFs::write` builds metadata with version counter 1 and
applies a `Create` that unconditionally replaces whatever entry the path
held: for every prior state, after the write the files map holds exactly
the freshly built metadata, whose version is 1. -/
theorem vfsWrite_resets_version (hash : List Nat → ContentHash) (st : SyncState)
    (path : String) (data : List Nat) (chunkSize : Nat) (now : Int) :
    (vfsWrite hash st path data chunkSize now).1.files path =
      some (vfsWrite hash st path data chunkSize now).2 ∧
    (vfsWrite hash st path data chunkSize now).2.version = 1 := by
  constructor
  · simp [vfsWrite, SyncState.applyLocal, SyncState.applyOperation, updFn]
  · rfl

/-- C2 fails on the code: `stA` and `stB` hold metadata for the same path
with equal version and equal modified timestamp but different content, and
the merge keeps `self`'s copy on such a tie, so the two merge orders
disagree on the files map. -/
theorem merge_not_commutative :
    (SyncState.merge stA stB).files "/c.txt" ≠ (SyncState.merge stB stA).files "/c.txt" := by
  decide

/-- C2 amended: the merge is commutative on the files map for all pairs of
states in which any two entries at a common path that tie on
`(version, modified)` are equal (in particular whenever no common path
ties, e.g. disjoint file sets). -/
theorem merge_commutative_of_tie_free (A B : SyncState)
    (h : ∀ p mA mB, A.files p = some mA → B.files p = some mB →
      mA.version = mB.version → mA.modified = mB.modified → mA = mB)
    (p : String) :
    (SyncState.merge A B).files p = (SyncState.merge B A).files p := by
  unfold SyncState.merge
  simp only
  cases hA : A.files p <;> cases hB : B.files p
  · rfl
  · rfl
  · rfl
  · rename_i a b
    by_cases h1 : lwwReplaces b a <;> by_cases h2 : lwwReplaces a b <;> simp [h1, h2]
    · exfalso
      unfold lwwReplaces at h1 h2
      omega
    · have hv : a.version = b.version := by
        unfold lwwReplaces at h1 h2
        omega
      have hm : a.modified = b.modified := by
        unfold lwwReplaces at h1 h2
        omega
      exact h p a b hA hB hv hm

/-- Witness for `merge_commutative_of_tie_free`: a state with one file
merged with the empty state, either way, yields the same entry. -/
theorem merge_commutative_of_tie_free_witness :
    (SyncState.merge stA stEmpty).files "/c.txt" = (SyncState.merge stEmpty stA).files "/c.txt" :=
  merge_commutative_of_tie_free stA stEmpty
    (by intro p mA mB hA hB; simp [stEmpty] at hB) "/c.txt"

/-- C3 fails on the code: `mdInc` ties with the existing entry `mdTie 10`
on version and has a strictly later `modified` field, so the claim's LWW
predicate demands replacement, but `apply_operation` compares the
operation's own timestamp (5, not later than the entry's modified 10) and
keeps the old entry. -/
theorem update_lww_claim_false :
    lwwReplaces mdInc (mdTie 10) ∧
    stA.files "/c.txt" = some (mdTie 10) ∧
    (stA.applyOperation opC3).files "/c.txt" = some (mdTie 10) ∧
    mdInc ≠ mdTie 10 := by
  refine ⟨by decide, by decide, ?_, by decide⟩
  decide

/-- C3 amended: `Update{p, m}` replaces an existing entry iff
`m.version > existing.version` or (`m.version == existing.version` and the
operation's timestamp is later than `existing.modified`); when `files[p]`
is absent it acts exactly like `Create{p, m}`; in both cases `status[p]`
becomes Synced. -/
theorem update_lww_characterization (st : SyncState) (p : String) (m : FileMetadata)
    (ts : Int) (nid : String) (ck : Nat) :
    (∀ ex, st.files p = some ex →
      (st.applyOperation { op := .update p m, timestamp := ts, node_id := nid, clock := ck }).files p =
        (if m.version > ex.version ∨ (m.version = ex.version ∧ ts > ex.modified)
          then some m else some ex)) ∧
    (st.files p = none →
      st.applyOperation { op := .update p m, timestamp := ts, node_id := nid, clock := ck } =
        st.applyOperation { op := .create p m, timestamp := ts, node_id := nid, clock := ck }) ∧
    (st.applyOperation { op := .update p m, timestamp := ts, node_id := nid, clock := ck }).status p =
      some .synced := by
  refine ⟨?_, ?_, ?_⟩
  · intro ex hex
    simp only [SyncState.applyOperation, hex]
    by_cases hc : m.version > ex.version ∨ (m.version = ex.version ∧ ts > ex.modified)
    · simp [hc, updFn]
    · simp [hc, updFn, hex]
  · intro hnone
    simp [SyncState.applyOperation, hnone]
  · cases hex : st.files p <;> simp [SyncState.applyOperation, hex, updFn]

/-- Witness for `update_lww_characterization` on the concrete state `stA`
and operation `opC3`. -/
theorem update_lww_characterization_witness :
    (stA.applyOperation { op := .update "/c.txt" mdInc, timestamp := 5, node_id := "n2", clock := 7 }).files "/c.txt" =
      (if mdInc.version > (mdTie 10).version ∨
          (mdInc.version = (mdTie 10).version ∧ (5 : Int) > (mdTie 10).modified)
        then some mdInc else some (mdTie 10)) :=
  (update_lww_characterization stA "/c.txt" mdInc 5 "n2" 7).1 (mdTie 10) (by decide)

/-- Slicing a nonempty list with a nonzero chunk size peels off the first
`s` elements. -/
theorem chunksOf_cons (s : Nat) (data : List Nat) (hs : s ≠ 0) (hd : data ≠ []) :
    chunksOf s data = data.take s :: chunksOf s (data.drop s) := by
  rw [chunksOf, dif_neg (by push_neg; exact ⟨hs, hd⟩)]

/-- Slicing the empty list yields no slices. -/
theorem chunksOf_nil (s : Nat) : chunksOf s [] = [] := by
  rw [chunksOf]
  simp

/-- Combined structural facts about fixed-size slicing, by strong induction
on the data length: concatenation restores the data, the slice count is the
ceiling `(|data| + s - 1) / s`, every slice has length in `1..=s`, and every
slice but the last has length exactly `s`. -/
theorem chunksOf_props (s : Nat) (hs : 0 < s) :
    ∀ (n : Nat) (data : List Nat), data.length ≤ n →
      (chunksOf s data).flatten = data ∧
      (chunksOf s data).length = (data.length + s - 1) / s ∧
      (∀ c ∈ chunksOf s data, 1 ≤ c.length ∧ c.length ≤ s) ∧
      (∀ c ∈ (chunksOf s data).dropLast, c.length = s) := by
  intro n
  induction n with
  | zero =>
    intro data hlen
    have hnil : data = [] := List.eq_nil_of_length_eq_zero (by omega)
    subst hnil
    refine ⟨by simp [chunksOf_nil], ?_, by simp [chunksOf_nil], by simp [chunksOf_nil]⟩
    simp [chunksOf_nil]
    exact (Nat.div_eq_of_lt (by omega)).symm
  | succ n ih =>
    intro data hlen
    by_cases hd : data = []
    · subst hd
      refine ⟨by simp [chunksOf_nil], ?_, by simp [chunksOf_nil], by simp [chunksOf_nil]⟩
      simp [chunksOf_nil]
      exact (Nat.div_eq_of_lt (by omega)).symm
    · have hpos : 0 < data.length := List.length_pos.mpr hd
      rw [chunksOf_cons s data (by omega) hd]
      have hdl : (data.drop s).length ≤ n := by
        simp only [List.length_drop]
        omega
      obtain ⟨ih1, ih2, ih3, ih4⟩ := ih (data.drop s) hdl
      refine ⟨?_, ?_, ?_, ?_⟩
      · simp [ih1]
      · simp only [List.length_cons, ih2, List.length_drop]
        rcases le_or_lt data.length s with hle | hlt
        · have h0 : data.length - s = 0 := by omega
          rw [h0]
          have h1 : (0 + s - 1) / s = 0 := Nat.div_eq_of_lt (by omega)
          have h2 : (data.length + s - 1) / s = 1 :=
            Nat.div_eq_of_lt_le (by omega) (by omega)
          omega
        · have h0 : data.length - s + s - 1 = data.length - 1 := by omega
          have h1 : data.length + s - 1 = (data.length - 1) + s := by omega
          rw [h0, h1, Nat.add_div_right _ hs]
      · intro c hc
        rcases List.mem_cons.mp hc with rfl | hc
        · simp only [List.length_take]
          omega
        · exact ih3 c hc
      · intro c hc
        cases hrec : chunksOf s (data.drop s) with
        | nil =>
          rw [hrec] at hc
          simp at hc
        | cons b t =>
          rw [hrec, List.dropLast_cons₂] at hc
          rcases List.mem_cons.mp hc with rfl | hc
          · have hne : data.drop s ≠ [] := by
              intro h0
              rw [h0, chunksOf_nil] at hrec
              cases hrec
            have hlt : s < data.length := by
              by_contra hge
              push_neg at hge
              exact hne (List.drop_eq_nil_of_le hge)
            simp only [List.length_take]
            omega
          · exact ih4 c (by rw [hrec]; exact hc)

/-- C7: for a chunk size `S > 0`, `chunk_data` produces exactly
`⌈|B| / S⌉ = (|B| + S - 1) / S` chunks, all but the last of length exactly
`S`, every chunk of length in `1..=S` with id equal to the hash of its
bytes, and `reassemble_chunks` restores `B` exactly. -/
theorem chunking_roundtrip (hash : List Nat → ContentHash) (B : List Nat) (S : Nat)
    (hS : 0 < S) :
    (chunkData hash B S).length = (B.length + S - 1) / S ∧
    (∀ c ∈ (chunkData hash B S).dropLast, c.data.length = S) ∧
    (∀ c ∈ chunkData hash B S, 1 ≤ c.data.length ∧ c.data.length ≤ S ∧ c.id = hash c.data) ∧
    reassembleChunks (chunkData hash B S) = B := by
  obtain ⟨h1, h2, h3, h4⟩ := chunksOf_props S hS B.length B le_rfl
  refine ⟨?_, ?_, ?_, ?_⟩
  · simp [chunkData, h2]
  · intro c hc
    unfold chunkData at hc
    rw [← List.map_dropLast] at hc
    obtain ⟨sl, hsl, rfl⟩ := List.mem_map.mp hc
    exact h4 sl hsl
  · intro c hc
    obtain ⟨sl, hsl, rfl⟩ := List.mem_map.mp hc
    obtain ⟨l1, l2⟩ := h3 sl hsl
    exact ⟨l1, l2, rfl⟩
  · unfold reassembleChunks chunkData
    rw [List.map_map]
    have hcomp : (Chunk.data ∘ fun slice => ({ id := hash slice, data := slice } : Chunk)) = id := rfl
    rw [hcomp, List.map_id]
    exact h1

/-- Witness for `chunking_roundtrip` at a concrete 7-byte input and chunk
size 3. -/
theorem chunking_roundtrip_witness :
    (chunkData (fun b => b) [1, 2, 3, 4, 5, 6, 7] 3).length = (7 + 3 - 1) / 3 :=
  (chunking_roundtrip (fun b => b) [1, 2, 3, 4, 5, 6, 7] 3 (by norm_num)).1

/-- Branch reduction: a counter far above the highest resets the bitmap. -/
theorem cam_gt_far {w : ReplayWindow} {c : Nat} (h1 : w.highest_seen < c)
    (h2 : 64 ≤ c - w.highest_seen) :
    checkAndMark w c = ({ highest_seen := c, bitmap := 1 }, true) := by
  simp [checkAndMark, h1, h2]

/-- Branch reduction: a counter moderately above the highest shifts the
bitmap and marks bit 0. -/
theorem cam_gt_near {w : ReplayWindow} {c : Nat} (h1 : w.highest_seen < c)
    (h2 : c - w.highest_seen < 64) :
    checkAndMark w c =
      ({ highest_seen := c
         bitmap := ((w.bitmap <<< (c - w.highest_seen)) % 2 ^ 64) ||| 1 }, true) := by
  simp [checkAndMark, h1, show ¬ 64 ≤ c - w.highest_seen from by omega]

/-- Branch reduction: a counter 64 or more below the highest is rejected. -/
theorem cam_le_old {w : ReplayWindow} {c : Nat} (h1 : ¬ w.highest_seen < c)
    (h2 : 64 ≤ w.highest_seen - c) :
    checkAndMark w c = (w, false) := by
  simp [checkAndMark, h1, h2]

/-- Branch reduction: a counter inside the window whose bit is already set
is rejected. -/
theorem cam_le_seen {w : ReplayWindow} {c : Nat} (h1 : ¬ w.highest_seen < c)
    (h2 : w.highest_seen - c < 64)
    (h3 : w.bitmap &&& (1 <<< (w.highest_seen - c)) ≠ 0) :
    checkAndMark w c = (w, false) := by
  simp [checkAndMark, h1, show ¬ 64 ≤ w.highest_seen - c from by omega, h3]

/-- Branch reduction: a counter inside the window whose bit is clear is
accepted and its bit set. -/
theorem cam_le_mark {w : ReplayWindow} {c : Nat} (h1 : ¬ w.highest_seen < c)
    (h2 : w.highest_seen - c < 64)
    (h3 : ¬ w.bitmap &&& (1 <<< (w.highest_seen - c)) ≠ 0) :
    checkAndMark w c =
      ({ w with bitmap := w.bitmap ||| (1 <<< (w.highest_seen - c)) }, true) := by
  simp [checkAndMark, h1, show ¬ 64 ≤ w.highest_seen - c from by omega, h3]

/-- The masked test of the Rust code reads bit `d`. -/
theorem and_shift_ne_zero_iff (x d : Nat) :
    x &&& (1 <<< d) ≠ 0 ↔ x.testBit d = true := by
  rw [Nat.one_shiftLeft, Nat.and_two_pow]
  cases hb : x.testBit d <;> simp [hb]

/-- The fresh window realizes the invariant with no accepted counters. -/
theorem windowInv_new : WindowInv ReplayWindow.new [] := by
  refine ⟨by norm_num [ReplayWindow.new], by simp, ?_⟩
  intro i hi
  simp [ReplayWindow.new]

/-- Accepting a counter at least 64 above the highest resets the bitmap and
preserves the invariant. -/
theorem windowInv_gt_far {w : ReplayWindow} {S : List Nat} {c : Nat}
    (hInv : WindowInv w S) (h1 : w.highest_seen < c) (h2 : 64 ≤ c - w.highest_seen) :
    WindowInv { highest_seen := c, bitmap := 1 } (c :: S) := by
  obtain ⟨hb, hmem, hbits⟩ := hInv
  refine ⟨by norm_num, ?_, ?_⟩
  · intro x hx
    rcases List.mem_cons.mp hx with rfl | hx
    · exact le_refl x
    · exact le_trans (hmem x hx) (le_of_lt h1)
  · intro i hi
    simp only
    rw [Nat.testBit_one_eq_true_iff_self_eq_zero]
    constructor
    · rintro rfl
      exact ⟨Nat.zero_le c, by simp⟩
    · rintro ⟨hic, hmemc⟩
      rcases List.mem_cons.mp hmemc with he | hS
      · omega
      · have := hmem _ hS
        omega

/-- Accepting a counter moderately above the highest shifts the bitmap and
preserves the invariant. -/
theorem windowInv_gt_near {w : ReplayWindow} {S : List Nat} {c : Nat}
    (hInv : WindowInv w S) (h1 : w.highest_seen < c) (h2 : c - w.highest_seen < 64) :
    WindowInv
      { highest_seen := c
        bitmap := ((w.bitmap <<< (c - w.highest_seen)) % 2 ^ 64) ||| 1 }
      (c :: S) := by
  obtain ⟨hb, hmem, hbits⟩ := hInv
  refine ⟨?_, ?_, ?_⟩
  · exact Nat.or_lt_two_pow (Nat.mod_lt _ (by norm_num)) (by norm_num)
  · intro x hx
    rcases List.mem_cons.mp hx with rfl | hx
    · exact le_refl x
    · exact le_trans (hmem x hx) (le_of_lt h1)
  · intro i hi
    simp only
    have hL : (((w.bitmap <<< (c - w.highest_seen)) % 2 ^ 64) ||| 1).testBit i = true ↔
        ((i < 64 ∧ (c - w.highest_seen ≤ i ∧ w.bitmap.testBit (i - (c - w.highest_seen)) = true))
          ∨ i = 0) := by
      rw [Nat.testBit_or, Nat.testBit_mod_two_pow, Nat.testBit_shiftLeft]
      simp only [Nat.testBit_one_eq_true_iff_self_eq_zero, Bool.or_eq_true, Bool.and_eq_true,
        decide_eq_true_eq, ge_iff_le]
    rw [hL]
    constructor
    · rintro (⟨hi64, hsi, hbit⟩ | rfl)
      · obtain ⟨hjh, hjS⟩ := (hbits (i - (c - w.highest_seen)) (by omega)).mp hbit
        refine ⟨by omega, ?_⟩
        have heq : c - i = w.highest_seen - (i - (c - w.highest_seen)) := by omega
        rw [heq]
        exact List.mem_cons_of_mem _ hjS
      · exact ⟨Nat.zero_le _, by simp⟩
    · rintro ⟨hic, hmemc⟩
      rcases List.mem_cons.mp hmemc with he | hS
      · right
        omega
      · left
        have hch := hmem _ hS
        have hsi : c - w.highest_seen ≤ i := by omega
        refine ⟨hi, hsi, ?_⟩
        apply (hbits (i - (c - w.highest_seen)) (by omega)).mpr
        refine ⟨by omega, ?_⟩
        have heq : w.highest_seen - (i - (c - w.highest_seen)) = c - i := by omega
        rw [heq]
        exact hS

/-- Accepting a counter inside the window sets its bit and preserves the
invariant. -/
theorem windowInv_le_mark {w : ReplayWindow} {S : List Nat} {c : Nat}
    (hInv : WindowInv w S) (h1 : ¬ w.highest_seen < c) (h2 : w.highest_seen - c < 64)
    (h3 : w.bitmap.testBit (w.highest_seen - c) = false) :
    WindowInv { w with bitmap := w.bitmap ||| (1 <<< (w.highest_seen - c)) } (c :: S) := by
  obtain ⟨hb, hmem, hbits⟩ := hInv
  refine ⟨?_, ?_, ?_⟩
  · refine Nat.or_lt_two_pow hb ?_
    rw [Nat.one_shiftLeft]
    exact Nat.pow_lt_pow_right (by norm_num) h2
  · intro x hx
    rcases List.mem_cons.mp hx with rfl | hx
    · show x ≤ w.highest_seen
      omega
    · exact hmem x hx
  · intro i hi
    simp only
    have hL : (w.bitmap ||| (1 <<< (w.highest_seen - c))).testBit i = true ↔
        (w.bitmap.testBit i = true ∨ w.highest_seen - c = i) := by
      simp [Nat.testBit_or, Nat.one_shiftLeft, Nat.testBit_two_pow, Bool.or_eq_true,
        decide_eq_true_eq]
    rw [hL]
    constructor
    · rintro (hbit | rfl)
      · obtain ⟨hih, hiS⟩ := (hbits i hi).mp hbit
        exact ⟨hih, List.mem_cons_of_mem _ hiS⟩
      · refine ⟨by omega, ?_⟩
        have heq : w.highest_seen - (w.highest_seen - c) = c := by omega
        rw [heq]
        exact List.mem_cons_self _ _
    · rintro ⟨hih, hmemc⟩
      rcases List.mem_cons.mp hmemc with he | hS
      · right
        omega
      · left
        exact (hbits i hi).mpr ⟨hih, hS⟩

/-- Under the invariant, `check_and_mark` accepts a counter exactly when it
was never accepted before and is within 64 of the highest counter seen
(for a counter above the highest the natural subtraction is 0). -/
theorem cam_accept_iff {w : ReplayWindow} {S : List Nat} {c : Nat} (hInv : WindowInv w S) :
    ((checkAndMark w c).2 = true ↔ (c ∉ S ∧ w.highest_seen - c < 64)) := by
  obtain ⟨hb, hmem, hbits⟩ := hInv
  rcases Nat.lt_or_ge w.highest_seen c with h1 | h1
  · have hnotin : c ∉ S := fun hc => by
      have := hmem c hc
      omega
    rcases Nat.lt_or_ge (c - w.highest_seen) 64 with h2 | h2
    · rw [cam_gt_near h1 h2]
      simp only [true_iff]
      exact ⟨hnotin, by omega⟩
    · rw [cam_gt_far h1 h2]
      simp only [true_iff]
      exact ⟨hnotin, by omega⟩
  · rcases Nat.lt_or_ge (w.highest_seen - c) 64 with h2 | h2
    · by_cases h3 : w.bitmap &&& (1 <<< (w.highest_seen - c)) ≠ 0
      · rw [cam_le_seen (by omega) h2 h3]
        have hbit : w.bitmap.testBit (w.highest_seen - c) = true :=
          (and_shift_ne_zero_iff _ _).mp h3
        obtain ⟨hdh, hdS⟩ := (hbits _ h2).mp hbit
        have hcS : c ∈ S := by
          have heq : w.highest_seen - (w.highest_seen - c) = c := by omega
          rwa [heq] at hdS
        simp only [Bool.false_eq_true, false_iff]
        exact fun hk => hk.1 hcS
      · rw [cam_le_mark (by omega) h2 h3]
        simp only [true_iff]
        refine ⟨?_, h2⟩
        intro hcS
        apply h3
        apply (and_shift_ne_zero_iff _ _).mpr
        apply (hbits _ h2).mpr
        have heq : w.highest_seen - (w.highest_seen - c) = c := by omega
        exact ⟨by omega, by rw [heq]; exact hcS⟩
    · rw [cam_le_old (by omega) h2]
      simp only [Bool.false_eq_true, false_iff]
      exact fun hk => by omega

/-- A counter just accepted by `check_and_mark` is rejected when checked
again on the resulting window. -/
theorem cam_accept_twice {w : ReplayWindow} {c : Nat} (h : (checkAndMark w c).2 = true) :
    (checkAndMark (checkAndMark w c).1 c).2 = false := by
  rcases Nat.lt_or_ge w.highest_seen c with h1 | h1
  · rcases Nat.lt_or_ge (c - w.highest_seen) 64 with h2 | h2
    · rw [cam_gt_near h1 h2]
      have hbit : ((((w.bitmap <<< (c - w.highest_seen)) % 2 ^ 64) ||| 1)).testBit 0 = true := by
        simp [Nat.testBit_or]
      rw [cam_le_seen (by show ¬ c < c; omega) (by show c - c < 64; omega)
        (by show _ &&& (1 <<< (c - c)) ≠ 0
            rw [show c - c = 0 from by omega]
            exact (and_shift_ne_zero_iff _ 0).mpr hbit)]
    · rw [cam_gt_far h1 h2]
      rw [cam_le_seen (by show ¬ c < c; omega) (by show c - c < 64; omega)
        (by show (1 : Nat) &&& (1 <<< (c - c)) ≠ 0
            rw [show c - c = 0 from by omega]
            exact (and_shift_ne_zero_iff _ 0).mpr (by simp))]
  · rcases Nat.lt_or_ge (w.highest_seen - c) 64 with h2 | h2
    · by_cases h3 : w.bitmap &&& (1 <<< (w.highest_seen - c)) ≠ 0
      · rw [cam_le_seen (by omega) h2 h3] at h
        simp at h
      · rw [cam_le_mark (by omega) h2 h3]
        have hbit : (w.bitmap ||| (1 <<< (w.highest_seen - c))).testBit (w.highest_seen - c) =
            true := by
          simp [Nat.testBit_or, Nat.one_shiftLeft, Nat.testBit_two_pow]
        rw [cam_le_seen (by show ¬ w.highest_seen < c; omega)
          (by show w.highest_seen - c < 64; exact h2)
          ((and_shift_ne_zero_iff _ _).mpr hbit)]
    · rw [cam_le_old (by omega) h2] at h
      simp at h

/-- One `check_and_mark` step preserves the invariant, extending the
accepted list exactly on acceptance. -/
theorem cam_inv {w : ReplayWindow} {S : List Nat} (c : Nat) (hInv : WindowInv w S) :
    WindowInv (checkAndMark w c).1 (if (checkAndMark w c).2 then c :: S else S) := by
  rcases Nat.lt_or_ge w.highest_seen c with h1 | h1
  · rcases Nat.lt_or_ge (c - w.highest_seen) 64 with h2 | h2
    · rw [cam_gt_near h1 h2]
      simpa using windowInv_gt_near hInv h1 h2
    · rw [cam_gt_far h1 h2]
      simpa using windowInv_gt_far hInv h1 h2
  · rcases Nat.lt_or_ge (w.highest_seen - c) 64 with h2 | h2
    · by_cases h3 : w.bitmap &&& (1 <<< (w.highest_seen - c)) ≠ 0
      · rw [cam_le_seen (by omega) h2 h3]
        simpa using hInv
      · rw [cam_le_mark (by omega) h2 h3]
        have hbit : w.bitmap.testBit (w.highest_seen - c) = false := by
          cases htb : w.bitmap.testBit (w.highest_seen - c) with
          | false => rfl
          | true => exact absurd ((and_shift_ne_zero_iff _ _).mpr htb) h3
        simpa using windowInv_le_mark hInv (by omega) h2 hbit
    · rw [cam_le_old (by omega) h2]
      simpa using hInv

/-- Running the window over any counter sequence preserves the invariant
and never accepts the same counter twice. -/
theorem runAcc_sound (l : List Nat) : ∀ (w : ReplayWindow) (S : List Nat),
    WindowInv w S → S.Nodup →
    WindowInv (runAcc w S l).1 (runAcc w S l).2 ∧ (runAcc w S l).2.Nodup := by
  induction l with
  | nil =>
    intro w S h hn
    exact ⟨h, hn⟩
  | cons c cs ih =>
    intro w S h hn
    simp only [runAcc]
    by_cases hr : (checkAndMark w c).2 = true
    · have hnotin : c ∉ S := ((cam_accept_iff h).mp hr).1
      have hinv' := cam_inv c h
      rw [hr] at hinv' ⊢
      simp only [if_true] at hinv' ⊢
      exact ih _ _ hinv' (List.nodup_cons.mpr ⟨hnotin, hn⟩)
    · have hr' : (checkAndMark w c).2 = false := by
        revert hr
        cases (checkAndMark w c).2 <;> simp
      have hinv' := cam_inv c h
      rw [hr'] at hinv' ⊢
      simp only [if_false, Bool.false_eq_true] at hinv' ⊢
      exact ih _ _ hinv' hn

/-- C1: starting from the fresh window and checking any sequence of
counters `l` (acceptances collected in `(runAcc .new [] l).2`): a further
counter `c` is accepted iff it was never accepted before and lies within 64
of the highest counter seen (so an exact replay of an accepted counter is
rejected, a counter more than 63 below the highest is rejected as too old,
and an in-window never-accepted counter is accepted); no counter is ever
accepted twice; and consequently a `SecureMessage` that decrypted
successfully fails on an immediate second decrypt of the same message. -/
theorem replay_window_claim (l : List Nat) (c : Nat) :
    ((checkAndMark (runAcc ReplayWindow.new [] l).1 c).2 = true ↔
      (c ∉ (runAcc ReplayWindow.new [] l).2 ∧
        (runAcc ReplayWindow.new [] l).1.highest_seen - c < 64)) ∧
    (runAcc ReplayWindow.new [] l).2.Nodup ∧
    (∀ (peer : ContentHash) (aead : Option (List Nat)) (w' : ReplayWindow)
        (p : List Nat) (msg : SecureMessage),
      decryptStep peer aead (runAcc ReplayWindow.new [] l).1 msg = (w', some p) →
      (decryptStep peer aead w' msg).2 = none) := by
  obtain ⟨hInv, hnd⟩ := runAcc_sound l ReplayWindow.new [] windowInv_new List.nodup_nil
  refine ⟨cam_accept_iff hInv, hnd, ?_⟩
  intro peer aead w' p msg hdec
  by_cases hs : msg.sender ≠ peer
  · simp [decryptStep, hs] at hdec
  · simp only [decryptStep, hs, if_false, ite_not] at hdec ⊢
    by_cases hr : (checkAndMark (runAcc ReplayWindow.new [] l).1 msg.counter).2 = true
    · rw [hr] at hdec
      simp only [if_true] at hdec
      obtain ⟨hw, hp⟩ := Prod.mk.injEq .. ▸ hdec
      have hrej := cam_accept_twice hr
      rw [← hw] at *
      simp [decryptStep, hs, hrej]
    · have hr' : (checkAndMark (runAcc ReplayWindow.new [] l).1 msg.counter).2 = false := by
        revert hr
        cases (checkAndMark (runAcc ReplayWindow.new [] l).1 msg.counter).2 <;> simp
      rw [hr'] at hdec
      simp at hdec

/-- Witness for `replay_window_claim`: after accepting counters 0 and 5,
the never-seen counter 7 (within 64 of the highest) is accepted. -/
theorem replay_window_claim_witness :
    (checkAndMark (runAcc ReplayWindow.new [] [0, 5]).1 7).2 = true :=
  (replay_window_claim [0, 5] 7).1.mpr ⟨by decide, by decide⟩
